import Mathlib

/-!
Verification of the `jsonparser` package of `go-junit-report`.

The Go source (`jsonparser/parser.go`) is shallowly embedded as follows.

* `time.Duration` values are integers (nanoseconds, `ℤ`); the deprecated
  `Time` fields (milliseconds) are likewise `ℤ`.
* The `Elapsed` field (a `float32` number of seconds in Go) is modelled as an
  exact rational number; the conversion
  `time.Duration(lineoutput.Elapsed * float32(time.Second))` is modelled by
  `durationOfElapsed`: exact rational multiplication by `10^9` followed by Go's
  float-to-integer conversion (truncation toward zero).  For the concrete
  elapsed values appearing in theorems below (`0.01`, `0.02`, `0.1`) the
  `float32` computation of the source agrees with exact rational arithmetic.
* The input stream is modelled as the list of lines successfully read
  (`List Line`) followed by either a clean end of stream (`none`) or a read
  error (`some e`).  A `Line` either decodes as a `LineOutput` record
  (`Line.valid`) or fails to decode (`Line.garbage`), in which case the
  source ignores `json.Unmarshal`'s error and keeps the zero-valued record.
* Go slices of pointers with in-place mutation become lists updated at an
  index (`modifyAt`); `findTest`/`findPackage` return the index found by the
  source's backward scan instead of a pointer.
* The mirroring of every line's `Output` text to `os.Stderr` is a side effect
  that is not observable in the returned report and is not modelled.
-/

namespace JsonParser

/-- Test result constants: `PASS`, `FAIL`, `SKIP` (`Result` in the source). -/
inductive Result
  | PASS
  | FAIL
  | SKIP
deriving DecidableEq, Repr

/-- `Test` contains the results of a single test.  `Duration` is in
nanoseconds; the deprecated `Time` field is in milliseconds. -/
structure Test where
  Name : String
  Package : String
  Duration : ℤ
  Result : Result
  Output : List String
  SubtestIndent : String
  Time : ℤ
deriving DecidableEq, Repr

/-- `Benchmark` contains the results of a single benchmark. -/
structure Benchmark where
  Name : String
  Duration : ℤ
  Bytes : ℤ
  Allocs : ℤ
deriving DecidableEq, Repr

/-- `Package` contains the test results of a single package.  `Duration` is in
nanoseconds; the deprecated `Time` field is in milliseconds. -/
structure Package where
  Name : String
  Duration : ℤ
  Tests : List Test
  Benchmarks : List Benchmark
  CoveragePct : String
  Time : ℤ
deriving DecidableEq, Repr

/-- `Report` is a collection of package tests. -/
structure Report where
  Packages : List Package
deriving DecidableEq, Repr

/-- One decoded input record (`LineOutput` in the source).  The `Time`
timestamp field of the source is never read by `Parse` and is omitted. -/
structure LineOutput where
  Action : String
  Package : String
  Test : String
  Output : String
  Elapsed : ℚ
deriving DecidableEq, Repr

/-- One line of the input stream: either it decodes as a `LineOutput` record,
or `json.Unmarshal` fails on it (`garbage`). -/
inductive Line
  | valid (lineoutput : LineOutput)
  | garbage
deriving DecidableEq, Repr

/-- The zero value of `LineOutput`, left in place when decoding fails. -/
def zeroLineOutput : LineOutput :=
  { Action := "", Package := "", Test := "", Output := "", Elapsed := 0 }

/-- Decoding one line: `json.Unmarshal(l, &lineoutput)` with the error
ignored, so a garbage line yields the zero-valued record. -/
def decodeLine : Line → LineOutput
  | .valid lineoutput => lineoutput
  | .garbage => zeroLineOutput

/-- Go's `time.Duration(e * float32(time.Second))` with `float32` arithmetic
modelled exactly: multiply the elapsed seconds by `10^9` and truncate toward
zero. -/
def durationOfElapsed (e : ℚ) : ℤ :=
  let x := e * 1000000000
  if 0 ≤ x then ⌊x⌋ else -⌊-x⌋

/-- Index (from the front) of the element `findTest` of the source returns:
the backward scan returns the last element of `tests` named `name`. -/
def findTest : List Test → String → Option ℕ
  | [], _ => none
  | t :: ts, name =>
    match findTest ts name with
    | some i => some (i + 1)
    | none => if t.Name = name then some 0 else none

/-- Index (from the front) of the element `findPackage` of the source
returns: the backward scan returns the last element of `packages` named
`name`. -/
def findPackage : List Package → String → Option ℕ
  | [], _ => none
  | p :: ps, name =>
    match findPackage ps name with
    | some i => some (i + 1)
    | none => if p.Name = name then some 0 else none

/-- In-place mutation through a slice element pointer: update position `i`. -/
def modifyAt (f : α → α) : List α → ℕ → List α
  | [], _ => []
  | a :: l, 0 => f a :: l
  | a :: l, i + 1 => a :: modifyAt f l i

/-- The fresh `Package` literal of the source: zero duration, no tests; the
`benchmarks` and `coveragePct` loop variables are never assigned by the
source, so the seeds are the empty list and the empty string. -/
def newPackage (name : String) : Package :=
  { Name := name, Duration := 0, Tests := [], Benchmarks := [], CoveragePct := "",
    Time := 0 }

/-- The fresh `Test` literal of the source: result `FAIL`, empty output. -/
def newTest (lineoutput : LineOutput) : Test :=
  { Name := lineoutput.Test, Package := lineoutput.Package, Duration := 0,
    Result := .FAIL, Output := [], SubtestIndent := "", Time := 0 }

/-- The package-scoped update of the source's loop body: only the action
`"pass"` touches the package, setting its duration from the elapsed time. -/
def applyPackageAction (lineoutput : LineOutput) (p : Package) : Package :=
  if lineoutput.Action = "pass" then
    { p with Duration := durationOfElapsed lineoutput.Elapsed }
  else p

/-- The test-scoped update of the source's loop body: `"output"` appends the
output fragment; `"pass"`/`"fail"` set the duration, and `"pass"` alone sets
the result to `PASS`. -/
def applyTestAction (lineoutput : LineOutput) (t : Test) : Test :=
  let t₁ :=
    if lineoutput.Action = "output" then
      { t with Output := t.Output ++ [lineoutput.Output] }
    else t
  if lineoutput.Action = "pass" ∨ lineoutput.Action = "fail" then
    let t₂ := if lineoutput.Action = "pass" then { t₁ with Result := .PASS } else t₁
    { t₂ with Duration := durationOfElapsed lineoutput.Elapsed }
  else t₁

/-- One iteration of the source's parse loop on the pair
(`report.Packages`, `tests`): decode the line, then dispatch on whether the
event is package-scoped (`Test == ""`) or test-scoped, find-or-create the
entity and apply the action. -/
def step (st : List Package × List Test) (l : Line) : List Package × List Test :=
  let lineoutput := decodeLine l
  if lineoutput.Test = "" then
    match findPackage st.1 lineoutput.Package with
    | some i => (modifyAt (applyPackageAction lineoutput) st.1 i, st.2)
    | none => (st.1 ++ [applyPackageAction lineoutput (newPackage lineoutput.Package)], st.2)
  else
    match findTest st.2 lineoutput.Test with
    | some i => (st.1, modifyAt (applyTestAction lineoutput) st.2 i)
    | none => (st.1, st.2 ++ [applyTestAction lineoutput (newTest lineoutput)])

/-- The source's parse loop over the successfully read lines. -/
def runLoop : List Line → List Package × List Test → List Package × List Test
  | [], st => st
  | l :: ls, st => runLoop ls (step st l)

/-- The source's final loop: attach every discovered test to the package
found-or-created from the test's recorded package name. -/
def finalize (packages : List Package) : List Test → List Package
  | [] => packages
  | t :: ts =>
    match findPackage packages t.Package with
    | some i =>
      finalize (modifyAt (fun p => { p with Tests := p.Tests ++ [t] }) packages i) ts
    | none => finalize (packages ++ [{ newPackage t.Package with Tests := [t] }]) ts

/-- `Parse(r, pkgName)`.  The stream `r` is modelled by the lines read
(`lines`) and how reading ends (`readErr`): `none` is a clean `io.EOF`, on
which the loop breaks and the assembled report is returned; `some e` is any
other read error, on which the source returns `(nil, err)`.  As in the
source, `pkgName` is accepted and never read. -/
def Parse (ε : Type) (lines : List Line) (readErr : Option ε) (pkgName : String) :
    Except ε Report :=
  match readErr with
  | some e => Except.error e
  | none =>
    let st := runLoop lines ([], [])
    Except.ok ⟨finalize st.1 st.2⟩

/-- The report `Parse` returns on a stream that ends with a clean EOF. -/
def parseOk (lines : List Line) (pkgName : String) : Report :=
  let st := runLoop lines ([], [])
  ⟨finalize st.1 st.2⟩

/-- `Failures` counts the number of failed tests in this report. -/
def Report.Failures (r : Report) : ℕ :=
  (r.Packages.map fun p => (p.Tests.filter fun t => t.Result = .FAIL).length).sum

/-! Specification-side helper definitions, used to state properties of
`Parse` in terms of the decoded event sequence of the input stream. -/

/-- The decoded event sequence of a list of input lines. -/
def events (lines : List Line) : List LineOutput := lines.map decodeLine

/-- Duration obtained from an optional elapsed value: zero when absent. -/
def durOfOpt : Option ℚ → ℤ
  | none => 0
  | some e => durationOfElapsed e

/-- The elapsed value of the last package-scoped `"pass"` event for package
`n` in an event sequence, when there is one. -/
def lastPkgPass (es : List LineOutput) (n : String) : Option ℚ :=
  es.foldl
    (fun acc lo =>
      if lo.Test = "" ∧ lo.Package = n ∧ lo.Action = "pass" then some lo.Elapsed
      else acc)
    none

/-- The elapsed value of the last `"pass"` or `"fail"` event for test `n` in
an event sequence, when there is one. -/
def lastTestTerminal (es : List LineOutput) (n : String) : Option ℚ :=
  es.foldl
    (fun acc lo =>
      if lo.Test = n ∧ (lo.Action = "pass" ∨ lo.Action = "fail") then some lo.Elapsed
      else acc)
    none

/-- Total number of occurrences, across all packages of `pkgs`, of tests
named `n`. -/
def testCount (pkgs : List Package) (n : String) : ℕ :=
  (pkgs.map fun p => p.Tests.countP fun t => t.Name == n).sum

/-! Concrete input streams used in the theorems below. -/

/-- A line that decodes as the record with the given action, package name,
test name, output fragment and elapsed seconds. -/
def mkLine (action pkg test out : String) (elapsed : ℚ) : Line :=
  .valid { Action := action, Package := pkg, Test := test, Output := out,
           Elapsed := elapsed }

/-- The four-line example stream of the specification: run/output/pass for
test `"t"` of package `"p"`, then a package-scoped pass for `"p"`. -/
def c3lines : List Line :=
  [ mkLine "run" "p" "t" "" 0,
    mkLine "output" "p" "t" "ok\n" 0,
    mkLine "pass" "p" "t" "" (1 / 100),
    mkLine "pass" "p" "" "" (1 / 50) ]

/-- Two `"run"` (create) events for a test named `"T"` followed by an
`"output"` event for `"T"`. -/
def c7lines : List Line :=
  [ mkLine "run" "p" "T" "" 0,
    mkLine "run" "p" "T" "" 0,
    mkLine "output" "p" "T" "x" 0 ]

/-- One garbage line between two valid package-scoped `"pass"` events. -/
def c8lines : List Line :=
  [ mkLine "pass" "p1" "" "" (1 / 10),
    Line.garbage,
    mkLine "pass" "p2" "" "" (1 / 10) ]

/-- A single test-scoped `"run"` event for test `"t"` of package `"p"`. -/
def c1lines : List Line :=
  [ mkLine "run" "p" "t" "" 0 ]

/-- A single package-scoped `"pass"` event for package `"p"`. -/
def c2lines : List Line :=
  [ mkLine "pass" "p" "" "" (1 / 50) ]

/-! The reports the concrete streams above parse to. -/

/-- The single test of the example stream `c3lines`. -/
def c3test : Test :=
  { Name := "t", Package := "p", Duration := 10000000, Result := .PASS,
    Output := ["ok\n"], SubtestIndent := "", Time := 0 }

/-- The single package of the example stream `c3lines`. -/
def c3pkg : Package :=
  { Name := "p", Duration := 20000000, Tests := [c3test], Benchmarks := [],
    CoveragePct := "", Time := 0 }

/-- The single package of the stream `c2lines`. -/
def c2pkg : Package :=
  { Name := "p", Duration := 20000000, Tests := [], Benchmarks := [],
    CoveragePct := "", Time := 0 }

/-- The single entry for test `"T"` after the stream `c7lines`: the second
`"run"` event found this entry instead of creating a second one, so the
output fragment `"x"` ended up here. -/
def c7test : Test :=
  { Name := "T", Package := "p", Duration := 0, Result := .FAIL,
    Output := ["x"], SubtestIndent := "", Time := 0 }

/-- The single test of the stream `c1lines`, created by its `"run"` event. -/
def c1test : Test :=
  { Name := "t", Package := "p", Duration := 0, Result := .FAIL,
    Output := [], SubtestIndent := "", Time := 0 }

/-! Basic lemmas about the list helpers. -/

theorem length_modifyAt (f : α → α) : ∀ (l : List α) (i : ℕ),
    (modifyAt f l i).length = l.length
  | [], _ => rfl
  | _ :: l, 0 => rfl
  | _ :: l, i + 1 => congrArg Nat.succ (length_modifyAt f l i)

theorem modifyAt_eq_set (f : α → α) : ∀ (l : List α) (i : ℕ) (h : i < l.length),
    modifyAt f l i = l.set i (f (l.get ⟨i, h⟩))
  | _ :: _, 0, _ => rfl
  | a :: l, i + 1, h =>
    congrArg (a :: ·) (modifyAt_eq_set f l i (Nat.lt_of_succ_lt_succ h))

theorem map_modifyAt (g : α → β) (f : α → α) (hf : ∀ x, g (f x) = g x) :
    ∀ (l : List α) (i : ℕ), (modifyAt f l i).map g = l.map g
  | [], _ => rfl
  | a :: l, 0 => by simp [modifyAt, hf]
  | a :: l, i + 1 => by simp [modifyAt, map_modifyAt g f hf l i]

theorem findPackage_eq_none {ps : List Package} {n : String} :
    findPackage ps n = none ↔ ∀ p ∈ ps, p.Name ≠ n := by
  induction ps with
  | nil => simp [findPackage]
  | cons p ps ih =>
    simp only [findPackage]
    cases h : findPackage ps n with
    | some i => simp only [h] at ih; aesop
    | none => simp only [h] at ih; aesop

theorem findPackage_some {ps : List Package} {n : String} {i : ℕ}
    (h : findPackage ps n = some i) :
    ∃ hi : i < ps.length, (ps.get ⟨i, hi⟩).Name = n := by
  induction ps generalizing i with
  | nil => simp [findPackage] at h
  | cons p ps ih =>
    simp only [findPackage] at h
    cases hf : findPackage ps n with
    | some j =>
      rw [hf] at h
      obtain rfl : j + 1 = i := Option.some_injective _ h
      obtain ⟨hj, hn⟩ := ih hf
      exact ⟨Nat.succ_lt_succ hj, hn⟩
    | none =>
      rw [hf] at h
      by_cases hp : p.Name = n
      · simp [hp] at h
        obtain rfl : 0 = i := h
        exact ⟨Nat.succ_pos _, hp⟩
      · simp [hp] at h

theorem findTest_eq_none {ts : List Test} {n : String} :
    findTest ts n = none ↔ ∀ t ∈ ts, t.Name ≠ n := by
  induction ts with
  | nil => simp [findTest]
  | cons t ts ih =>
    simp only [findTest]
    cases h : findTest ts n with
    | some i => simp only [h] at ih; aesop
    | none => simp only [h] at ih; aesop

theorem findTest_some {ts : List Test} {n : String} {i : ℕ}
    (h : findTest ts n = some i) :
    ∃ hi : i < ts.length, (ts.get ⟨i, hi⟩).Name = n := by
  induction ts generalizing i with
  | nil => simp [findTest] at h
  | cons t ts ih =>
    simp only [findTest] at h
    cases hf : findTest ts n with
    | some j =>
      rw [hf] at h
      obtain rfl : j + 1 = i := Option.some_injective _ h
      obtain ⟨hj, hn⟩ := ih hf
      exact ⟨Nat.succ_lt_succ hj, hn⟩
    | none =>
      rw [hf] at h
      by_cases ht : t.Name = n
      · simp [ht] at h
        obtain rfl : 0 = i := h
        exact ⟨Nat.succ_pos _, ht⟩
      · simp [ht] at h

theorem lastPkgPass_append (es : List LineOutput) (lo : LineOutput) (n : String) :
    lastPkgPass (es ++ [lo]) n =
      if lo.Test = "" ∧ lo.Package = n ∧ lo.Action = "pass" then some lo.Elapsed
      else lastPkgPass es n := by
  simp [lastPkgPass, List.foldl_append]

theorem lastPkgPass_some {es : List LineOutput} {n : String}
    (h : lastPkgPass es n ≠ none) :
    ∃ lo ∈ es, lo.Test = "" ∧ lo.Package = n ∧ lo.Action = "pass" := by
  induction es using List.reverseRecOn with
  | nil => simp [lastPkgPass] at h
  | append_singleton es lo ih =>
    rw [lastPkgPass_append] at h
    by_cases hc : lo.Test = "" ∧ lo.Package = n ∧ lo.Action = "pass"
    · exact ⟨lo, by simp, hc⟩
    · simp only [hc, if_false] at h
      obtain ⟨x, hx, hc'⟩ := ih h
      exact ⟨x, by simp [hx], hc'⟩

theorem lastPkgPass_eq_none {es : List LineOutput} {n : String}
    (h : ∀ lo ∈ es, ¬(lo.Test = "" ∧ lo.Package = n)) :
    lastPkgPass es n = none := by
  cases hl : lastPkgPass es n with
  | none => rfl
  | some e =>
    obtain ⟨lo, hmem, h1, h2, _⟩ := @lastPkgPass_some es n (by simp [hl])
    exact absurd ⟨h1, h2⟩ (h lo hmem)

theorem lastTestTerminal_append (es : List LineOutput) (lo : LineOutput) (n : String) :
    lastTestTerminal (es ++ [lo]) n =
      if lo.Test = n ∧ (lo.Action = "pass" ∨ lo.Action = "fail") then some lo.Elapsed
      else lastTestTerminal es n := by
  simp [lastTestTerminal, List.foldl_append]

theorem lastTestTerminal_some {es : List LineOutput} {n : String}
    (h : lastTestTerminal es n ≠ none) :
    ∃ lo ∈ es, lo.Test = n ∧ (lo.Action = "pass" ∨ lo.Action = "fail") := by
  induction es using List.reverseRecOn with
  | nil => simp [lastTestTerminal] at h
  | append_singleton es lo ih =>
    rw [lastTestTerminal_append] at h
    by_cases hc : lo.Test = n ∧ (lo.Action = "pass" ∨ lo.Action = "fail")
    · exact ⟨lo, by simp, hc⟩
    · simp only [hc, if_false] at h
      obtain ⟨x, hx, hc'⟩ := ih h
      exact ⟨x, by simp [hx], hc'⟩

theorem lastTestTerminal_eq_none {es : List LineOutput} {n : String}
    (h : ∀ lo ∈ es, lo.Test ≠ n) : lastTestTerminal es n = none := by
  cases hl : lastTestTerminal es n with
  | none => rfl
  | some e =>
    obtain ⟨lo, hmem, h1, _⟩ :=
      @lastTestTerminal_some es n (by simp [hl])
    exact absurd h1 (h lo hmem)

/-! Field-preservation lemmas for the per-event update functions. -/

theorem applyPackageAction_Name (lo : LineOutput) (p : Package) :
    (applyPackageAction lo p).Name = p.Name := by
  unfold applyPackageAction; split <;> rfl

theorem applyPackageAction_Time (lo : LineOutput) (p : Package) :
    (applyPackageAction lo p).Time = p.Time := by
  unfold applyPackageAction; split <;> rfl

theorem applyPackageAction_Tests (lo : LineOutput) (p : Package) :
    (applyPackageAction lo p).Tests = p.Tests := by
  unfold applyPackageAction; split <;> rfl

theorem applyPackageAction_Duration (lo : LineOutput) (p : Package) :
    (applyPackageAction lo p).Duration =
      if lo.Action = "pass" then durationOfElapsed lo.Elapsed else p.Duration := by
  unfold applyPackageAction; split <;> simp_all

theorem applyTestAction_Name (lo : LineOutput) (t : Test) :
    (applyTestAction lo t).Name = t.Name := by
  unfold applyTestAction
  by_cases h3 : lo.Action = "pass"
  · simp [h3]
  · by_cases h2 : lo.Action = "fail"
    · simp [h2, h3]
    · by_cases h1 : lo.Action = "output" <;> simp [h1, h2, h3]

theorem applyTestAction_Time (lo : LineOutput) (t : Test) :
    (applyTestAction lo t).Time = t.Time := by
  unfold applyTestAction
  by_cases h3 : lo.Action = "pass"
  · simp [h3]
  · by_cases h2 : lo.Action = "fail"
    · simp [h2, h3]
    · by_cases h1 : lo.Action = "output" <;> simp [h1, h2, h3]

theorem applyTestAction_Result (lo : LineOutput) (t : Test) :
    (applyTestAction lo t).Result =
      if lo.Action = "pass" then Result.PASS else t.Result := by
  unfold applyTestAction
  by_cases h3 : lo.Action = "pass"
  · simp [h3]
  · by_cases h2 : lo.Action = "fail"
    · simp [h2, h3]
    · by_cases h1 : lo.Action = "output" <;> simp [h1, h2, h3]

theorem applyTestAction_Duration (lo : LineOutput) (t : Test) :
    (applyTestAction lo t).Duration =
      if lo.Action = "pass" ∨ lo.Action = "fail" then durationOfElapsed lo.Elapsed
      else t.Duration := by
  unfold applyTestAction
  by_cases h3 : lo.Action = "pass"
  · simp [h3]
  · by_cases h2 : lo.Action = "fail"
    · simp [h2, h3]
    · by_cases h1 : lo.Action = "output" <;> simp [h1, h2, h3]

/-- Membership of a mapped value is unchanged by an update that preserves the
mapped value. -/
theorem exists_map_eq_modifyAt {α β : Type} {g : α → β} {f : α → α}
    (hf : ∀ x, g (f x) = g x) (l : List α) (i : ℕ) {b : β} :
    (∃ a ∈ modifyAt f l i, g a = b) ↔ ∃ a ∈ l, g a = b := by
  have h1 : (modifyAt f l i).map g = l.map g := map_modifyAt g f hf l i
  constructor
  · rintro ⟨a, ha, rfl⟩
    have hm : g a ∈ (modifyAt f l i).map g := List.mem_map_of_mem g ha
    rw [h1] at hm
    simpa [List.mem_map] using hm
  · rintro ⟨a, ha, rfl⟩
    have hm : g a ∈ l.map g := List.mem_map_of_mem g ha
    rw [← h1] at hm
    simpa [List.mem_map] using hm

/-! The parse-loop invariant, split into a package part and a test part,
each stated against the event sequence processed so far. -/

/-- Invariant of the `report.Packages` list during the parse loop, after
processing the decoded events `es`. -/
structure PkgInv (es : List LineOutput) (pkgs : List Package) : Prop where
  nodup : (pkgs.map Package.Name).Nodup
  names : ∀ n, (∃ p ∈ pkgs, p.Name = n) ↔ ∃ lo ∈ es, lo.Test = "" ∧ lo.Package = n
  dur : ∀ p ∈ pkgs, p.Duration = durOfOpt (lastPkgPass es p.Name)
  time : ∀ p ∈ pkgs, p.Time = 0
  tests : ∀ p ∈ pkgs, p.Tests = []

/-- Invariant of the `tests` list during the parse loop, after processing the
decoded events `es`. -/
structure TestInv (es : List LineOutput) (tests : List Test) : Prop where
  nodup : (tests.map Test.Name).Nodup
  names : ∀ n, (∃ t ∈ tests, t.Name = n) ↔ (n ≠ "" ∧ ∃ lo ∈ es, lo.Test = n)
  result : ∀ t ∈ tests,
    (t.Result = .PASS ↔ ∃ lo ∈ es, lo.Test = t.Name ∧ lo.Action = "pass")
  resultCases : ∀ t ∈ tests, t.Result = .PASS ∨ t.Result = .FAIL
  dur : ∀ t ∈ tests, t.Duration = durOfOpt (lastTestTerminal es t.Name)
  time : ∀ t ∈ tests, t.Time = 0

theorem TestInv.name_ne {es : List LineOutput} {tests : List Test}
    (h : TestInv es tests) {t : Test} (ht : t ∈ tests) : t.Name ≠ "" :=
  ((h.names t.Name).1 ⟨t, ht, rfl⟩).1

/-- A package-scoped event leaves the test list and all test-side facts
untouched. -/
theorem TestInv.extendPkgScoped {es : List LineOutput} {tests : List Test}
    (h : TestInv es tests) {lo : LineOutput} (hlo : lo.Test = "") :
    TestInv (es ++ [lo]) tests where
  nodup := h.nodup
  names := by
    intro n
    rw [h.names n]
    constructor
    · rintro ⟨hn, lo', hm, hlo'⟩
      exact ⟨hn, lo', List.mem_append_left _ hm, hlo'⟩
    · rintro ⟨hn, lo', hm, hlo'⟩
      rcases List.mem_append.1 hm with hm | hm
      · exact ⟨hn, lo', hm, hlo'⟩
      · rw [List.mem_singleton] at hm
        subst hm
        exact absurd (hlo ▸ hlo') hn.symm
  result := by
    intro t ht
    rw [h.result t ht]
    constructor
    · rintro ⟨lo', hm, hlo'⟩
      exact ⟨lo', List.mem_append_left _ hm, hlo'⟩
    · rintro ⟨lo', hm, hlo'⟩
      rcases List.mem_append.1 hm with hm | hm
      · exact ⟨lo', hm, hlo'⟩
      · rw [List.mem_singleton] at hm
        subst hm
        exact absurd (hlo ▸ hlo'.1) (h.name_ne ht).symm
  resultCases := h.resultCases
  dur := by
    intro t ht
    rw [lastTestTerminal_append, if_neg, h.dur t ht]
    intro hc
    exact h.name_ne ht (hlo ▸ hc.1).symm
  time := h.time

/-- A test-scoped event leaves the package list and all package-side facts
untouched. -/
theorem PkgInv.extendTestScoped {es : List LineOutput} {pkgs : List Package}
    (h : PkgInv es pkgs) {lo : LineOutput} (hlo : lo.Test ≠ "") :
    PkgInv (es ++ [lo]) pkgs where
  nodup := h.nodup
  names := by
    intro n
    rw [h.names n]
    constructor
    · rintro ⟨lo', hm, hlo'⟩
      exact ⟨lo', List.mem_append_left _ hm, hlo'⟩
    · rintro ⟨lo', hm, hlo'⟩
      rcases List.mem_append.1 hm with hm | hm
      · exact ⟨lo', hm, hlo'⟩
      · rw [List.mem_singleton] at hm
        subst hm
        exact absurd hlo'.1 hlo
  dur := by
    intro p hp
    rw [lastPkgPass_append, if_neg, h.dur p hp]
    intro hc
    exact hlo hc.1
  time := h.time
  tests := h.tests

/-- Processing one package-scoped event preserves the package invariant. -/
theorem PkgInv.updatePkg {es : List LineOutput} {pkgs : List Package}
    (h : PkgInv es pkgs) {lo : LineOutput} (hlo : lo.Test = "") :
    PkgInv (es ++ [lo])
      (match findPackage pkgs lo.Package with
       | some i => modifyAt (applyPackageAction lo) pkgs i
       | none => pkgs ++ [applyPackageAction lo (newPackage lo.Package)]) := by
  cases hf : findPackage pkgs lo.Package with
  | none =>
    show PkgInv (es ++ [lo]) (pkgs ++ [applyPackageAction lo (newPackage lo.Package)])
    have hnone : ∀ p ∈ pkgs, p.Name ≠ lo.Package := findPackage_eq_none.1 hf
    have hnoev : ∀ lo' ∈ es, ¬(lo'.Test = "" ∧ lo'.Package = lo.Package) := by
      intro lo' hm hc
      obtain ⟨p, hp, hpn⟩ := (h.names lo.Package).2 ⟨lo', hm, hc.1, hc.2⟩
      exact hnone p hp hpn
    have hlast : lastPkgPass es lo.Package = none := lastPkgPass_eq_none hnoev
    have hpn : (applyPackageAction lo (newPackage lo.Package)).Name = lo.Package := by
      rw [applyPackageAction_Name]
      rfl
    refine { nodup := ?_, names := ?_, dur := ?_, time := ?_, tests := ?_ }
    · rw [List.map_append, List.nodup_append]
      refine ⟨h.nodup, by simp, ?_⟩
      intro a ha hb
      simp only [List.map_cons, List.map_nil, List.mem_singleton, hpn] at hb
      obtain ⟨p, hp, hpname⟩ := List.mem_map.1 ha
      exact hnone p hp (by rw [hpname, hb])
    · intro n
      constructor
      · rintro ⟨p, hp, rfl⟩
        rcases List.mem_append.1 hp with hp | hp
        · obtain ⟨lo', hm, hlo'⟩ := (h.names p.Name).1 ⟨p, hp, rfl⟩
          exact ⟨lo', List.mem_append_left _ hm, hlo'⟩
        · rw [List.mem_singleton] at hp
          subst hp
          exact ⟨lo, List.mem_append_right _ (List.mem_singleton_self _), hlo, hpn.symm⟩
      · rintro ⟨lo', hm, h1, h2⟩
        rcases List.mem_append.1 hm with hm | hm
        · obtain ⟨p, hp, hpname⟩ := (h.names n).2 ⟨lo', hm, h1, h2⟩
          exact ⟨p, List.mem_append_left _ hp, hpname⟩
        · rw [List.mem_singleton] at hm
          subst hm
          exact ⟨_, List.mem_append_right _ (List.mem_singleton_self _),
            by rw [hpn, h2]⟩
    · intro p hp
      rw [lastPkgPass_append]
      rcases List.mem_append.1 hp with hp | hp
      · rw [if_neg, h.dur p hp]
        rintro ⟨-, hc2, -⟩
        exact hnone p hp hc2.symm
      · rw [List.mem_singleton] at hp
        subst hp
        by_cases hpass : lo.Action = "pass"
        · rw [if_pos ⟨hlo, hpn.symm, hpass⟩, applyPackageAction_Duration, if_pos hpass]
          rfl
        · rw [if_neg (fun hc => hpass hc.2.2), hpn, hlast,
            applyPackageAction_Duration, if_neg hpass]
          rfl
    · intro p hp
      rcases List.mem_append.1 hp with hp | hp
      · exact h.time p hp
      · rw [List.mem_singleton] at hp
        subst hp
        rw [applyPackageAction_Time]
        rfl
    · intro p hp
      rcases List.mem_append.1 hp with hp | hp
      · exact h.tests p hp
      · rw [List.mem_singleton] at hp
        subst hp
        rw [applyPackageAction_Tests]
        rfl
  | some i =>
    show PkgInv (es ++ [lo]) (modifyAt (applyPackageAction lo) pkgs i)
    obtain ⟨hi, hname⟩ := findPackage_some hf
    refine { nodup := ?_, names := ?_, dur := ?_, time := ?_, tests := ?_ }
    · rw [map_modifyAt Package.Name _ (applyPackageAction_Name lo)]
      exact h.nodup
    · intro n
      rw [exists_map_eq_modifyAt (applyPackageAction_Name lo) pkgs i, h.names n]
      constructor
      · rintro ⟨lo', hm, hlo'⟩
        exact ⟨lo', List.mem_append_left _ hm, hlo'⟩
      · rintro ⟨lo', hm, h1, h2⟩
        rcases List.mem_append.1 hm with hm | hm
        · exact ⟨lo', hm, h1, h2⟩
        · rw [List.mem_singleton] at hm
          obtain ⟨lo₂, hm₂, hlo₂⟩ := (h.names lo.Package).1
            ⟨pkgs.get ⟨i, hi⟩, List.get_mem _ _ _, hname⟩
          exact ⟨lo₂, hm₂, hlo₂.1, hlo₂.2.trans (hm ▸ h2)⟩
    · intro p hp
      rw [lastPkgPass_append]
      rw [modifyAt_eq_set _ _ _ hi] at hp
      obtain ⟨j, hj, hpj⟩ := List.mem_iff_getElem.1 hp
      rw [List.length_set] at hj
      rw [List.getElem_set] at hpj
      by_cases hij : i = j
      · rw [if_pos hij] at hpj
        subst hpj
        by_cases hpass : lo.Action = "pass"
        · rw [if_pos ⟨hlo, ((applyPackageAction_Name lo _).trans hname).symm, hpass⟩,
            applyPackageAction_Duration, if_pos hpass]
          rfl
        · rw [if_neg (fun hc => hpass hc.2.2), applyPackageAction_Duration,
            if_neg hpass, applyPackageAction_Name]
          exact h.dur _ (List.get_mem _ _ _)
      · rw [if_neg hij] at hpj
        have hpmem : p ∈ pkgs := hpj ▸ List.getElem_mem _
        have hne : p.Name ≠ lo.Package := by
          intro hcontra
          have hj2 : j < (pkgs.map Package.Name).length := by simpa using hj
          have hi2 : i < (pkgs.map Package.Name).length := by simpa using hi
          have h1 : (pkgs.map Package.Name)[j] = (pkgs.map Package.Name)[i] := by
            rw [List.getElem_map, List.getElem_map, hpj, hcontra]
            exact hname.symm
          exact hij (h.nodup.getElem_inj_iff.1 h1).symm
        rw [if_neg (fun hc => hne hc.2.1.symm)]
        exact h.dur p hpmem
    · intro p hp
      rw [modifyAt_eq_set _ _ _ hi] at hp
      rcases List.mem_or_eq_of_mem_set hp with hp | rfl
      · exact h.time p hp
      · rw [applyPackageAction_Time]
        exact h.time _ (List.get_mem _ _ _)
    · intro p hp
      rw [modifyAt_eq_set _ _ _ hi] at hp
      rcases List.mem_or_eq_of_mem_set hp with hp | rfl
      · exact h.tests p hp
      · rw [applyPackageAction_Tests]
        exact h.tests _ (List.get_mem _ _ _)

/-- Processing one test-scoped event preserves the test invariant. -/
theorem TestInv.updateTest {es : List LineOutput} {tests : List Test}
    (h : TestInv es tests) {lo : LineOutput} (hlo : lo.Test ≠ "") :
    TestInv (es ++ [lo])
      (match findTest tests lo.Test with
       | some i => modifyAt (applyTestAction lo) tests i
       | none => tests ++ [applyTestAction lo (newTest lo)]) := by
  cases hf : findTest tests lo.Test with
  | none =>
    show TestInv (es ++ [lo]) (tests ++ [applyTestAction lo (newTest lo)])
    have hnone : ∀ t ∈ tests, t.Name ≠ lo.Test := findTest_eq_none.1 hf
    have hnoev : ∀ lo' ∈ es, lo'.Test ≠ lo.Test := by
      intro lo' hm hc
      obtain ⟨t, ht, htname⟩ := (h.names lo.Test).2 ⟨hlo, lo', hm, hc⟩
      exact hnone t ht htname
    have hlastnone : lastTestTerminal es lo.Test = none :=
      lastTestTerminal_eq_none hnoev
    have htn : (applyTestAction lo (newTest lo)).Name = lo.Test := by
      rw [applyTestAction_Name]
      rfl
    refine { nodup := ?_, names := ?_, result := ?_, resultCases := ?_,
             dur := ?_, time := ?_ }
    · rw [List.map_append, List.nodup_append]
      refine ⟨h.nodup, by simp, ?_⟩
      intro a ha hb
      simp only [List.map_cons, List.map_nil, List.mem_singleton, htn] at hb
      obtain ⟨t, ht, htname⟩ := List.mem_map.1 ha
      exact hnone t ht (by rw [htname, hb])
    · intro n
      constructor
      · rintro ⟨t, ht, rfl⟩
        rcases List.mem_append.1 ht with ht | ht
        · obtain ⟨hn, lo', hm, hlo'⟩ := (h.names t.Name).1 ⟨t, ht, rfl⟩
          exact ⟨hn, lo', List.mem_append_left _ hm, hlo'⟩
        · rw [List.mem_singleton] at ht
          subst ht
          exact ⟨by rw [htn]; exact hlo,
            lo, List.mem_append_right _ (List.mem_singleton_self _), htn.symm⟩
      · rintro ⟨hn, lo', hm, hlo'⟩
        rcases List.mem_append.1 hm with hm | hm
        · obtain ⟨t, ht, htname⟩ := (h.names n).2 ⟨hn, lo', hm, hlo'⟩
          exact ⟨t, List.mem_append_left _ ht, htname⟩
        · rw [List.mem_singleton] at hm
          exact ⟨_, List.mem_append_right _ (List.mem_singleton_self _),
            htn.trans (hm ▸ hlo')⟩
    · intro t ht
      rcases List.mem_append.1 ht with ht | ht
      · rw [h.result t ht]
        constructor
        · rintro ⟨lo', hm, hc⟩
          exact ⟨lo', List.mem_append_left _ hm, hc⟩
        · rintro ⟨lo', hm, hc1, hc2⟩
          rcases List.mem_append.1 hm with hm | hm
          · exact ⟨lo', hm, hc1, hc2⟩
          · rw [List.mem_singleton] at hm
            exact absurd (hm ▸ hc1) (fun hx => hnone t ht hx.symm)
      · rw [List.mem_singleton] at ht
        subst ht
        rw [applyTestAction_Result, htn]
        by_cases hpass : lo.Action = "pass"
        · rw [if_pos hpass]
          exact iff_of_true rfl
            ⟨lo, List.mem_append_right _ (List.mem_singleton_self _), rfl, hpass⟩
        · rw [if_neg hpass]
          refine iff_of_false (by simp [newTest]) ?_
          rintro ⟨lo', hm, hc1, hc2⟩
          rcases List.mem_append.1 hm with hm | hm
          · exact hnoev lo' hm hc1
          · rw [List.mem_singleton] at hm
            exact hpass (hm ▸ hc2)
    · intro t ht
      rcases List.mem_append.1 ht with ht | ht
      · exact h.resultCases t ht
      · rw [List.mem_singleton] at ht
        subst ht
        rw [applyTestAction_Result]
        by_cases hpass : lo.Action = "pass"
        · rw [if_pos hpass]
          exact Or.inl rfl
        · rw [if_neg hpass]
          exact Or.inr rfl
    · intro t ht
      rw [lastTestTerminal_append]
      rcases List.mem_append.1 ht with ht | ht
      · rw [if_neg, h.dur t ht]
        rintro ⟨hc1, -⟩
        exact hnone t ht hc1.symm
      · rw [List.mem_singleton] at ht
        subst ht
        rw [applyTestAction_Duration, htn]
        by_cases hterm : lo.Action = "pass" ∨ lo.Action = "fail"
        · rw [if_pos hterm, if_pos ⟨rfl, hterm⟩]
          rfl
        · rw [if_neg hterm, if_neg (fun hc => hterm hc.2), hlastnone]
          rfl
    · intro t ht
      rcases List.mem_append.1 ht with ht | ht
      · exact h.time t ht
      · rw [List.mem_singleton] at ht
        subst ht
        rw [applyTestAction_Time]
        rfl
  | some i =>
    show TestInv (es ++ [lo]) (modifyAt (applyTestAction lo) tests i)
    obtain ⟨hi, hname⟩ := findTest_some hf
    refine { nodup := ?_, names := ?_, result := ?_, resultCases := ?_,
             dur := ?_, time := ?_ }
    · rw [map_modifyAt Test.Name _ (applyTestAction_Name lo)]
      exact h.nodup
    · intro n
      rw [exists_map_eq_modifyAt (applyTestAction_Name lo) tests i, h.names n]
      constructor
      · rintro ⟨hn, lo', hm, hlo'⟩
        exact ⟨hn, lo', List.mem_append_left _ hm, hlo'⟩
      · rintro ⟨hn, lo', hm, hlo'⟩
        rcases List.mem_append.1 hm with hm | hm
        · exact ⟨hn, lo', hm, hlo'⟩
        · rw [List.mem_singleton] at hm
          obtain ⟨-, lo₂, hm₂, hlo₂⟩ := (h.names lo.Test).1
            ⟨tests.get ⟨i, hi⟩, List.get_mem _ _ _, hname⟩
          exact ⟨hn, lo₂, hm₂, hlo₂.trans (hm ▸ hlo')⟩
    · intro t ht
      rw [modifyAt_eq_set _ _ _ hi] at ht
      obtain ⟨j, hj, htj⟩ := List.mem_iff_getElem.1 ht
      rw [List.length_set] at hj
      rw [List.getElem_set] at htj
      by_cases hij : i = j
      · rw [if_pos hij] at htj
        subst htj
        rw [applyTestAction_Result, (applyTestAction_Name lo _).trans hname]
        by_cases hpass : lo.Action = "pass"
        · rw [if_pos hpass]
          exact iff_of_true rfl
            ⟨lo, List.mem_append_right _ (List.mem_singleton_self _), rfl, hpass⟩
        · rw [if_neg hpass, h.result _ (List.get_mem _ _ _), hname]
          constructor
          · rintro ⟨lo', hm, hc⟩
            exact ⟨lo', List.mem_append_left _ hm, hc⟩
          · rintro ⟨lo', hm, hc1, hc2⟩
            rcases List.mem_append.1 hm with hm | hm
            · exact ⟨lo', hm, hc1, hc2⟩
            · rw [List.mem_singleton] at hm
              exact absurd (hm ▸ hc2) hpass
      · rw [if_neg hij] at htj
        have htmem : t ∈ tests := htj ▸ List.getElem_mem _
        have hne : t.Name ≠ lo.Test := by
          intro hcontra
          have hj2 : j < (tests.map Test.Name).length := by simpa using hj
          have hi2 : i < (tests.map Test.Name).length := by simpa using hi
          have h1 : (tests.map Test.Name)[j] = (tests.map Test.Name)[i] := by
            rw [List.getElem_map, List.getElem_map, htj, hcontra]
            exact hname.symm
          exact hij (h.nodup.getElem_inj_iff.1 h1).symm
        rw [h.result t htmem]
        constructor
        · rintro ⟨lo', hm, hc⟩
          exact ⟨lo', List.mem_append_left _ hm, hc⟩
        · rintro ⟨lo', hm, hc1, hc2⟩
          rcases List.mem_append.1 hm with hm | hm
          · exact ⟨lo', hm, hc1, hc2⟩
          · rw [List.mem_singleton] at hm
            exact absurd (hm ▸ hc1) (fun hx => hne hx.symm)
    · intro t ht
      rw [modifyAt_eq_set _ _ _ hi] at ht
      rcases List.mem_or_eq_of_mem_set ht with ht | rfl
      · exact h.resultCases t ht
      · rw [applyTestAction_Result]
        by_cases hpass : lo.Action = "pass"
        · rw [if_pos hpass]
          exact Or.inl rfl
        · rw [if_neg hpass]
          exact h.resultCases _ (List.get_mem _ _ _)
    · intro t ht
      rw [lastTestTerminal_append]
      rw [modifyAt_eq_set _ _ _ hi] at ht
      obtain ⟨j, hj, htj⟩ := List.mem_iff_getElem.1 ht
      rw [List.length_set] at hj
      rw [List.getElem_set] at htj
      by_cases hij : i = j
      · rw [if_pos hij] at htj
        subst htj
        rw [applyTestAction_Duration, (applyTestAction_Name lo _).trans hname]
        by_cases hterm : lo.Action = "pass" ∨ lo.Action = "fail"
        · rw [if_pos hterm, if_pos ⟨rfl, hterm⟩]
          rfl
        · rw [if_neg hterm, if_neg (fun hc => hterm hc.2), ← hname]
          exact h.dur _ (List.get_mem _ _ _)
      · rw [if_neg hij] at htj
        have htmem : t ∈ tests := htj ▸ List.getElem_mem _
        have hne : t.Name ≠ lo.Test := by
          intro hcontra
          have hj2 : j < (tests.map Test.Name).length := by simpa using hj
          have hi2 : i < (tests.map Test.Name).length := by simpa using hi
          have h1 : (tests.map Test.Name)[j] = (tests.map Test.Name)[i] := by
            rw [List.getElem_map, List.getElem_map, htj, hcontra]
            exact hname.symm
          exact hij (h.nodup.getElem_inj_iff.1 h1).symm
        rw [if_neg (fun hc => hne hc.1.symm)]
        exact h.dur t htmem
    · intro t ht
      rw [modifyAt_eq_set _ _ _ hi] at ht
      rcases List.mem_or_eq_of_mem_set ht with ht | rfl
      · exact h.time t ht
      · rw [applyTestAction_Time]
        exact h.time _ (List.get_mem _ _ _)

theorem step_eq_pkg {st : List Package × List Test} {l : Line}
    (hlo : (decodeLine l).Test = "") :
    step st l =
      (match findPackage st.1 (decodeLine l).Package with
       | some i => modifyAt (applyPackageAction (decodeLine l)) st.1 i
       | none =>
         st.1 ++ [applyPackageAction (decodeLine l) (newPackage (decodeLine l).Package)],
       st.2) := by
  simp only [step, hlo, if_pos]
  cases findPackage st.1 (decodeLine l).Package <;> rfl

theorem step_eq_test {st : List Package × List Test} {l : Line}
    (hlo : ¬(decodeLine l).Test = "") :
    step st l =
      (st.1,
       match findTest st.2 (decodeLine l).Test with
       | some i => modifyAt (applyTestAction (decodeLine l)) st.2 i
       | none => st.2 ++ [applyTestAction (decodeLine l) (newTest (decodeLine l))]) := by
  simp only [step, hlo, if_neg, if_false]
  cases findTest st.2 (decodeLine l).Test <;> rfl

/-- One loop iteration preserves both halves of the invariant. -/
theorem stepInv {es : List LineOutput} {pkgs : List Package} {tests : List Test}
    (hp : PkgInv es pkgs) (ht : TestInv es tests) (l : Line) :
    PkgInv (es ++ [decodeLine l]) (step (pkgs, tests) l).1 ∧
      TestInv (es ++ [decodeLine l]) (step (pkgs, tests) l).2 := by
  by_cases hlo : (decodeLine l).Test = ""
  · rw [step_eq_pkg hlo]
    exact ⟨hp.updatePkg hlo, ht.extendPkgScoped hlo⟩
  · rw [step_eq_test hlo]
    exact ⟨hp.extendTestScoped hlo, ht.updateTest hlo⟩

theorem PkgInv.initPkg : PkgInv [] [] where
  nodup := List.nodup_nil
  names := by simp
  dur := by simp
  time := by simp
  tests := by simp

theorem TestInv.initTest : TestInv [] [] where
  nodup := List.nodup_nil
  names := by simp
  result := by simp
  resultCases := by simp
  dur := by simp
  time := by simp

theorem runLoopInv : ∀ (ls : List Line) {es : List LineOutput}
    {pkgs : List Package} {tests : List Test},
    PkgInv es pkgs → TestInv es tests →
    PkgInv (es ++ events ls) (runLoop ls (pkgs, tests)).1 ∧
      TestInv (es ++ events ls) (runLoop ls (pkgs, tests)).2 := by
  intro ls
  induction ls with
  | nil =>
    intro es pkgs tests hp ht
    simpa [runLoop, events] using ⟨hp, ht⟩
  | cons l ls ih =>
    intro es pkgs tests hp ht
    have hstep := stepInv hp ht l
    have hrest := ih hstep.1 hstep.2
    simpa [events, List.append_assoc] using hrest

/-- At the end of the parse loop both invariant halves hold against the full
decoded event sequence of the stream. -/
theorem loopInv (lines : List Line) :
    PkgInv (events lines) (runLoop lines ([], [])).1 ∧
      TestInv (events lines) (runLoop lines ([], [])).2 := by
  have h := runLoopInv lines PkgInv.initPkg TestInv.initTest
  simpa using h

/-! Lemmas about the finalization loop. -/

theorem finalize_cons_some {pkgs : List Package} {t : Test} {ts : List Test} {i : ℕ}
    (hf : findPackage pkgs t.Package = some i) :
    finalize pkgs (t :: ts) =
      finalize (modifyAt (fun p => { p with Tests := p.Tests ++ [t] }) pkgs i) ts := by
  simp only [finalize, hf]

theorem finalize_cons_none {pkgs : List Package} {t : Test} {ts : List Test}
    (hf : findPackage pkgs t.Package = none) :
    finalize pkgs (t :: ts) =
      finalize (pkgs ++ [{ newPackage t.Package with Tests := [t] }]) ts := by
  simp only [finalize, hf]

/-- The package-level facts carried from the loop into the report: name
uniqueness, coverage of every package-scoped event's package name, the
duration characterization and the zero `Time` field all survive `finalize`. -/
theorem finalize_pkgInv (es : List LineOutput) :
    ∀ (ts : List Test) (pkgs : List Package),
      (pkgs.map Package.Name).Nodup →
      (∀ n, (∃ lo ∈ es, lo.Test = "" ∧ lo.Package = n) → ∃ p ∈ pkgs, p.Name = n) →
      (∀ p ∈ pkgs, p.Duration = durOfOpt (lastPkgPass es p.Name)) →
      (∀ p ∈ pkgs, p.Time = 0) →
      ((finalize pkgs ts).map Package.Name).Nodup ∧
        (∀ n, (∃ lo ∈ es, lo.Test = "" ∧ lo.Package = n) →
          ∃ p ∈ finalize pkgs ts, p.Name = n) ∧
        (∀ p ∈ finalize pkgs ts, p.Duration = durOfOpt (lastPkgPass es p.Name)) ∧
        (∀ p ∈ finalize pkgs ts, p.Time = 0) := by
  intro ts
  induction ts with
  | nil =>
    intro pkgs h1 h2 h3 h4
    exact ⟨h1, h2, h3, h4⟩
  | cons t ts ih =>
    intro pkgs h1 h2 h3 h4
    cases hf : findPackage pkgs t.Package with
    | some i =>
      obtain ⟨hi, -⟩ := findPackage_some hf
      rw [finalize_cons_some hf]
      have hfn : ∀ p : Package,
          ({ p with Tests := p.Tests ++ [t] } : Package).Name = p.Name :=
        fun p => rfl
      refine ih _ ?_ ?_ ?_ ?_
      · rw [map_modifyAt Package.Name _ hfn]
        exact h1
      · intro n hn
        exact (exists_map_eq_modifyAt hfn pkgs i).2 (h2 n hn)
      · intro p hp
        rw [modifyAt_eq_set _ _ _ hi] at hp
        rcases List.mem_or_eq_of_mem_set hp with hp | rfl
        · exact h3 p hp
        · simpa using h3 _ (List.get_mem pkgs i hi)
      · intro p hp
        rw [modifyAt_eq_set _ _ _ hi] at hp
        rcases List.mem_or_eq_of_mem_set hp with hp | rfl
        · exact h4 p hp
        · simpa using h4 _ (List.get_mem pkgs i hi)
    | none =>
      have hnone : ∀ p ∈ pkgs, p.Name ≠ t.Package := findPackage_eq_none.1 hf
      have hlast : lastPkgPass es t.Package = none := by
        apply lastPkgPass_eq_none
        intro lo hm hc
        obtain ⟨p, hp, hpn⟩ := h2 t.Package ⟨lo, hm, hc.1, hc.2⟩
        exact hnone p hp hpn
      rw [finalize_cons_none hf]
      refine ih _ ?_ ?_ ?_ ?_
      · rw [List.map_append, List.nodup_append]
        refine ⟨h1, by simp, ?_⟩
        intro a ha hb
        simp only [List.map_cons, List.map_nil, List.mem_singleton] at hb
        obtain ⟨p, hp, hpn⟩ := List.mem_map.1 ha
        exact hnone p hp (by rw [hpn, hb]; rfl)
      · intro n hn
        obtain ⟨p, hp, hpn⟩ := h2 n hn
        exact ⟨p, List.mem_append_left _ hp, hpn⟩
      · intro p hp
        rcases List.mem_append.1 hp with hp | hp
        · exact h3 p hp
        · rw [List.mem_singleton] at hp
          subst hp
          show (0 : ℤ) = durOfOpt (lastPkgPass es t.Package)
          rw [hlast]
          rfl
      · intro p hp
        rcases List.mem_append.1 hp with hp | hp
        · exact h4 p hp
        · rw [List.mem_singleton] at hp
          subst hp
          rfl

/-- Every test found inside a package of the finalized report either came
from a package of the loop state or from the discovered test list. -/
theorem mem_tests_finalize : ∀ (ts : List Test) (pkgs : List Package)
    (p : Package) (t : Test),
    p ∈ finalize pkgs ts → t ∈ p.Tests → (∃ q ∈ pkgs, t ∈ q.Tests) ∨ t ∈ ts := by
  intro ts
  induction ts with
  | nil =>
    intro pkgs p t hp ht
    exact Or.inl ⟨p, hp, ht⟩
  | cons t₀ ts ih =>
    intro pkgs p t hp ht
    cases hf : findPackage pkgs t₀.Package with
    | some i =>
      obtain ⟨hi, -⟩ := findPackage_some hf
      rw [finalize_cons_some hf] at hp
      rcases ih _ p t hp ht with ⟨q, hq, htq⟩ | hts
      · rw [modifyAt_eq_set _ _ _ hi] at hq
        rcases List.mem_or_eq_of_mem_set hq with hq | rfl
        · exact Or.inl ⟨q, hq, htq⟩
        · rcases List.mem_append.1 htq with htq | htq
          · exact Or.inl ⟨pkgs.get ⟨i, hi⟩, List.get_mem _ _ _, htq⟩
          · rw [List.mem_singleton] at htq
            exact Or.inr (htq ▸ List.mem_cons_self _ _)
      · exact Or.inr (List.mem_cons_of_mem _ hts)
    | none =>
      rw [finalize_cons_none hf] at hp
      rcases ih _ p t hp ht with ⟨q, hq, htq⟩ | hts
      · rcases List.mem_append.1 hq with hq | hq
        · exact Or.inl ⟨q, hq, htq⟩
        · rw [List.mem_singleton] at hq
          subst hq
          rw [List.mem_singleton] at htq
          exact Or.inr (htq ▸ List.mem_cons_self _ _)
      · exact Or.inr (List.mem_cons_of_mem _ hts)

theorem testCount_modifyAt (t : Test) (n : String) :
    ∀ (pkgs : List Package) (i : ℕ), i < pkgs.length →
    testCount (modifyAt (fun p => { p with Tests := p.Tests ++ [t] }) pkgs i) n =
      testCount pkgs n + (if t.Name == n then 1 else 0) := by
  intro pkgs
  induction pkgs with
  | nil =>
    intro i hi
    simp at hi
  | cons p pkgs ih =>
    intro i hi
    cases i with
    | zero =>
      by_cases hb : (t.Name == n) <;>
        simp [modifyAt, testCount, List.countP_append, List.countP_cons, hb] <;> omega
    | succ i =>
      have := ih i (Nat.lt_of_succ_lt_succ hi)
      simp only [modifyAt, testCount, List.map_cons, List.sum_cons] at this ⊢
      omega

theorem testCount_append (pkgs : List Package) (p : Package) (n : String) :
    testCount (pkgs ++ [p]) n =
      testCount pkgs n + p.Tests.countP (fun t => t.Name == n) := by
  simp [testCount]

/-- `finalize` distributes every discovered test into exactly one package:
the total per-name count over the report grows by the per-name count of the
distributed list. -/
theorem finalize_testCount (n : String) : ∀ (ts : List Test) (pkgs : List Package),
    testCount (finalize pkgs ts) n =
      testCount pkgs n + ts.countP (fun t => t.Name == n) := by
  intro ts
  induction ts with
  | nil =>
    intro pkgs
    simp [finalize]
  | cons t ts ih =>
    intro pkgs
    cases hf : findPackage pkgs t.Package with
    | some i =>
      obtain ⟨hi, -⟩ := findPackage_some hf
      rw [finalize_cons_some hf, ih, testCount_modifyAt t n pkgs i hi,
        List.countP_cons]
      omega
    | none =>
      rw [finalize_cons_none hf, ih, testCount_append, List.countP_cons]
      simp only [List.countP_cons, List.countP_nil]
      omega

/-- During the loop packages own no tests, so the report's per-name test
count before distribution is zero. -/
theorem testCount_eq_zero {pkgs : List Package}
    (h : ∀ p ∈ pkgs, p.Tests = []) (n : String) : testCount pkgs n = 0 := by
  unfold testCount
  apply List.sum_eq_zero
  intro x hx
  obtain ⟨p, hp, hpx⟩ := List.mem_map.1 hx
  rw [← hpx, h p hp]
  rfl

/-- A list of tests with pairwise-distinct names that contains a test named
`n` contains exactly one test named `n`. -/
theorem countP_name_eq_one {tests : List Test} (d : (tests.map Test.Name).Nodup)
    {n : String} (h : ∃ t ∈ tests, t.Name = n) :
    tests.countP (fun t => t.Name == n) = 1 := by
  obtain ⟨t, ht, htn⟩ := h
  have hmem : n ∈ tests.map Test.Name := List.mem_map.2 ⟨t, ht, htn⟩
  have hcount := List.count_eq_one_of_mem d hmem
  rw [List.count, List.countP_map] at hcount
  exact hcount

/-! Evaluation of the concrete streams. -/

theorem c3_eval : parseOk c3lines "" = ⟨[c3pkg]⟩ := by
  simp [parseOk, c3lines, mkLine, runLoop, step, decodeLine, zeroLineOutput,
    findPackage, findTest, modifyAt, newPackage, newTest, applyPackageAction,
    applyTestAction, finalize, durationOfElapsed, c3pkg, c3test]
  norm_num

theorem c2_eval : parseOk c2lines "" = ⟨[c2pkg]⟩ := by
  simp [parseOk, c2lines, mkLine, runLoop, step, decodeLine, zeroLineOutput,
    findPackage, findTest, modifyAt, newPackage, newTest, applyPackageAction,
    applyTestAction, finalize, durationOfElapsed, c2pkg]
  norm_num

theorem c1_eval : parseOk c1lines "default" = ⟨[{ newPackage "p" with Tests := [c1test] }]⟩ := by
  simp [parseOk, c1lines, mkLine, runLoop, step, decodeLine, zeroLineOutput,
    findPackage, findTest, modifyAt, newPackage, newTest, applyPackageAction,
    applyTestAction, finalize, c1test]

theorem c7_eval : parseOk c7lines "" = ⟨[{ newPackage "p" with Tests := [c7test] }]⟩ := by
  simp [parseOk, c7lines, mkLine, runLoop, step, decodeLine, zeroLineOutput,
    findPackage, findTest, modifyAt, newPackage, newTest, applyPackageAction,
    applyTestAction, finalize, c7test]

theorem c8_eval_names :
    (parseOk c8lines "").Packages.map Package.Name = ["p1", "", "p2"] := by
  simp [parseOk, c8lines, mkLine, runLoop, step, decodeLine, zeroLineOutput,
    findPackage, findTest, modifyAt, newPackage, newTest, applyPackageAction,
    applyTestAction, finalize]

/-! The claims. -/

/-- C1 (code bug): contrary to `Parse`'s own documentation, the
caller-supplied default package name is never read: the result of `Parse` is
identical for any two defaults, and on a stream whose only event is a
test-scoped `"run"` event for test `"t"` of package `"p"`, with default
`"default"`, the package created at finalization is labeled `"p"` — the
default labels nothing. -/
theorem C1_default_package_name_never_used :
    (∀ (ε : Type) (lines : List Line) (readErr : Option ε) (s₁ s₂ : String),
      Parse ε lines readErr s₁ = Parse ε lines readErr s₂) ∧
    (parseOk c1lines "default").Packages.map Package.Name = ["p"] := by
  refine ⟨fun _ _ _ _ _ => rfl, ?_⟩
  rw [c1_eval]
  rfl

/-- C2 counterexample: after the single package-scoped `"pass"` event of
`c2lines` (elapsed 0.02 s) the package's `Duration` is 20000000 ns = 20 ms,
but its deprecated `Time` field holds 0, not 20: `Parse` does not keep the
integer-millisecond mirror in lockstep with `Duration`. -/
theorem C2_counterexample :
    ¬ ∀ p ∈ (parseOk c2lines "").Packages, p.Time = p.Duration / 1000000 := by
  intro hall
  have h := hall c2pkg (by rw [c2_eval]; exact List.mem_singleton_self _)
  revert h
  decide

/-- C2 amended: `Parse` never updates the deprecated `Time` field at all: on
every input stream, every package of the returned report and every test it
owns has `Time = 0`, whatever its `Duration` is. -/
theorem C2_time_field_never_updated :
    ∀ (lines : List Line) (pkgName : String),
      ∀ p ∈ (parseOk lines pkgName).Packages,
        p.Time = 0 ∧ ∀ t ∈ p.Tests, t.Time = 0 := by
  intro lines pkgName p hp
  obtain ⟨hpInv, htInv⟩ := loopInv lines
  have hfin := finalize_pkgInv (events lines) (runLoop lines ([], [])).2
    (runLoop lines ([], [])).1 hpInv.nodup
    (fun n hn => (hpInv.names n).2 hn) hpInv.dur hpInv.time
  constructor
  · exact hfin.2.2.2 p hp
  · intro t ht
    rcases mem_tests_finalize _ _ p t hp ht with ⟨q, hq, htq⟩ | hts
    · rw [hpInv.tests q hq] at htq
      exact absurd htq (List.not_mem_nil t)
    · exact htInv.time t hts

/-- Witness for C2 amended, at the concrete stream `c2lines`. -/
theorem C2_time_field_never_updated_witness :
    c2pkg.Time = 0 ∧ ∀ t ∈ c2pkg.Tests, t.Time = 0 :=
  C2_time_field_never_updated c2lines "" c2pkg
    (by rw [c2_eval]; exact List.mem_singleton_self _)

/-- C3: on the four-line example stream `c3lines`, `Parse` succeeds and the
report holds exactly one package `"p"` of duration 20 ms (20000000 ns)
containing exactly one test `"t"` that passed with duration 10 ms
(10000000 ns) and output `["ok\n"]`; `Failures` returns 0. -/
theorem C3_example_stream :
    (∀ ε : Type, Parse ε c3lines none "" = Except.ok (parseOk c3lines "")) ∧
    parseOk c3lines "" = ⟨[c3pkg]⟩ ∧
    (parseOk c3lines "").Failures = 0 := by
  refine ⟨fun _ => rfl, c3_eval, ?_⟩
  rw [c3_eval]
  rfl

/-- C4: every test name referenced by at least one test-scoped event occurs
exactly once among the tests of the packages of the returned report: it is
in the test list of exactly one package, and in no package more than once. -/
theorem C4_each_test_appears_exactly_once :
    ∀ (lines : List Line) (pkgName : String) (n : String), n ≠ "" →
      (∃ lo ∈ events lines, lo.Test = n) →
      testCount (parseOk lines pkgName).Packages n = 1 := by
  intro lines pkgName n hn href
  obtain ⟨hpInv, htInv⟩ := loopInv lines
  have h1 := finalize_testCount n (runLoop lines ([], [])).2 (runLoop lines ([], [])).1
  have h2 : testCount (runLoop lines ([], [])).1 n = 0 := testCount_eq_zero hpInv.tests n
  have h3 : (runLoop lines ([], [])).2.countP (fun t => t.Name == n) = 1 :=
    countP_name_eq_one htInv.nodup ((htInv.names n).2 ⟨hn, href⟩)
  show testCount (finalize (runLoop lines ([], [])).1 (runLoop lines ([], [])).2) n = 1
  rw [h1, h2, h3]

/-- Witness for C4, at the example stream `c3lines` and the test `"t"`. -/
theorem C4_each_test_appears_exactly_once_witness :
    testCount (parseOk c3lines "").Packages "t" = 1 :=
  C4_each_test_appears_exactly_once c3lines "" "t" (by decide)
    ⟨{ Action := "run", Package := "p", Test := "t", Output := "", Elapsed := 0 },
      by simp [events, c3lines, mkLine, decodeLine], rfl⟩

/-- C5: a package's duration in the report is the conversion of the elapsed
time of the last package-scoped `"pass"` event for its name, and zero when
there is none — in particular it is non-zero only if such a `"pass"` event
occurred, whatever durations the package's own tests have. -/
theorem C5_package_duration_only_from_pass :
    ∀ (lines : List Line) (pkgName : String),
      ∀ p ∈ (parseOk lines pkgName).Packages,
        p.Duration = durOfOpt (lastPkgPass (events lines) p.Name) ∧
        (p.Duration ≠ 0 →
          ∃ lo ∈ events lines,
            lo.Test = "" ∧ lo.Package = p.Name ∧ lo.Action = "pass") := by
  intro lines pkgName p hp
  obtain ⟨hpInv, htInv⟩ := loopInv lines
  have hfin := finalize_pkgInv (events lines) (runLoop lines ([], [])).2
    (runLoop lines ([], [])).1 hpInv.nodup
    (fun n hn => (hpInv.names n).2 hn) hpInv.dur hpInv.time
  have hd := hfin.2.2.1 p hp
  refine ⟨hd, fun hne => ?_⟩
  apply lastPkgPass_some
  intro hnone
  rw [hnone] at hd
  exact hne hd

/-- Witness for C5, at the concrete stream `c2lines`. -/
theorem C5_package_duration_only_from_pass_witness :
    c2pkg.Duration = durOfOpt (lastPkgPass (events c2lines) c2pkg.Name) ∧
    (c2pkg.Duration ≠ 0 →
      ∃ lo ∈ events c2lines,
        lo.Test = "" ∧ lo.Package = c2pkg.Name ∧ lo.Action = "pass") :=
  C5_package_duration_only_from_pass c2lines "" c2pkg
    (by rw [c2_eval]; exact List.mem_singleton_self _)

/-- C6: a test's result in the report is `PASS` exactly when some test-scoped
event for its name had action exactly `"pass"` (so a terminating `"skip"`
leaves the default `FAIL`, and no test ever ends in the `SKIP` state), and
its duration is the conversion of the elapsed time of the last `"pass"` or
`"fail"` event for its name (zero when there is none). -/
theorem C6_test_result_iff_pass_event :
    ∀ (lines : List Line) (pkgName : String),
      ∀ p ∈ (parseOk lines pkgName).Packages, ∀ t ∈ p.Tests,
        (t.Result = .PASS ↔
          ∃ lo ∈ events lines, lo.Test = t.Name ∧ lo.Action = "pass") ∧
        (t.Result = .PASS ∨ t.Result = .FAIL) ∧
        t.Duration = durOfOpt (lastTestTerminal (events lines) t.Name) := by
  intro lines pkgName p hp t ht
  obtain ⟨hpInv, htInv⟩ := loopInv lines
  have hmem : t ∈ (runLoop lines ([], [])).2 := by
    rcases mem_tests_finalize _ _ p t hp ht with ⟨q, hq, htq⟩ | hts
    · rw [hpInv.tests q hq] at htq
      exact absurd htq (List.not_mem_nil t)
    · exact hts
  exact ⟨htInv.result t hmem, htInv.resultCases t hmem, htInv.dur t hmem⟩

/-- Witness for C6, at the example stream `c3lines` and its test `"t"`. -/
theorem C6_test_result_iff_pass_event_witness :
    (c3test.Result = .PASS ↔
      ∃ lo ∈ events c3lines, lo.Test = c3test.Name ∧ lo.Action = "pass") ∧
    (c3test.Result = .PASS ∨ c3test.Result = .FAIL) ∧
    c3test.Duration = durOfOpt (lastTestTerminal (events c3lines) c3test.Name) :=
  C6_test_result_iff_pass_event c3lines "" c3pkg
    (by rw [c3_eval]; exact List.mem_singleton_self _) c3test
    (List.mem_singleton_self _)

/-- C7 counterexample: after two `"run"` events for `"T"` and one `"output"`
event for `"T"`, the report does not contain two entries for `"T"`: the
second `"run"` event found the first entry instead of creating a second one,
so there is no second-created entry to receive the output. -/
theorem C7_counterexample :
    ¬ ∃ t₀ t₁ : Test,
      ((parseOk c7lines "").Packages.map Package.Tests).flatten.filter
        (fun t => t.Name == "T") = [t₀, t₁] := by
  rw [c7_eval]
  rintro ⟨t₀, t₁, h⟩
  simp [newPackage, c7test] at h

/-- C7 amended: given two `"run"` (create) events for tests named `"T"`
followed by an `"output"` event for `"T"`, creation is guarded by the
reverse most-recent-match lookup, so the second `"run"` event finds the
entry created by the first and creates nothing; the single resulting entry
for `"T"` receives the output fragment. -/
theorem C7_output_to_single_entry :
    ((parseOk c7lines "").Packages.map Package.Tests).flatten.filter
      (fun t => t.Name == "T") = [c7test] := by
  rw [c7_eval]
  rfl

/-- C8: a line that fails to decode never halts or aborts processing: the
zero-valued record is substituted and no error is recorded or surfaced
(`Parse` succeeds on every stream that ends in clean end of stream), and the
stream `c8lines` — one garbage line between two valid package-scoped
`"pass"` events — still yields both packages `"p1"` and `"p2"` in the
report. -/
theorem C8_malformed_line_never_halts :
    decodeLine Line.garbage = zeroLineOutput ∧
    (∀ (ε : Type) (lines : List Line) (pkgName : String),
      Parse ε lines none pkgName = Except.ok (parseOk lines pkgName)) ∧
    (∃ p ∈ (parseOk c8lines "").Packages, p.Name = "p1") ∧
    (∃ p ∈ (parseOk c8lines "").Packages, p.Name = "p2") := by
  refine ⟨rfl, fun _ _ _ => rfl, ?_, ?_⟩
  · have h : "p1" ∈ (parseOk c8lines "").Packages.map Package.Name := by
      rw [c8_eval_names]
      simp
    obtain ⟨p, hp, hpn⟩ := List.mem_map.1 h
    exact ⟨p, hp, hpn⟩
  · have h : "p2" ∈ (parseOk c8lines "").Packages.map Package.Name := by
      rw [c8_eval_names]
      simp
    obtain ⟨p, hp, hpn⟩ := List.mem_map.1 h
    exact ⟨p, hp, hpn⟩

/-- C9: a read failure other than clean end of stream makes `Parse` return
no report and surface exactly that error, discarding all progress; clean end
of stream is the only success terminator and always yields a report with no
error. -/
theorem C9_read_error_is_fatal :
    (∀ (ε : Type) (lines : List Line) (e : ε) (pkgName : String),
      Parse ε lines (some e) pkgName = Except.error e) ∧
    (∀ (ε : Type) (lines : List Line) (pkgName : String),
      Parse ε lines none pkgName = Except.ok (parseOk lines pkgName)) :=
  ⟨fun _ _ _ _ => rfl, fun _ _ _ => rfl⟩

/-- C10: a garbage line decodes to the zero-valued record, hence is treated
as a package-scoped event for the empty package name: any stream containing
a garbage line yields exactly one package named `""` in the report (created
by the first such line; later ones find and update the same entry). -/
theorem C10_garbage_yields_empty_named_package :
    ∀ (lines : List Line) (pkgName : String), Line.garbage ∈ lines →
      ((parseOk lines pkgName).Packages.map Package.Name).count "" = 1 := by
  intro lines pkgName hg
  obtain ⟨hpInv, htInv⟩ := loopInv lines
  have hfin := finalize_pkgInv (events lines) (runLoop lines ([], [])).2
    (runLoop lines ([], [])).1 hpInv.nodup
    (fun n hn => (hpInv.names n).2 hn) hpInv.dur hpInv.time
  have hev : ∃ lo ∈ events lines, lo.Test = "" ∧ lo.Package = "" :=
    ⟨decodeLine Line.garbage, List.mem_map_of_mem decodeLine hg, rfl, rfl⟩
  obtain ⟨p, hp, hpn⟩ := hfin.2.1 "" hev
  have hmm : "" ∈ (finalize (runLoop lines ([], [])).1
      (runLoop lines ([], [])).2).map Package.Name :=
    List.mem_map.2 ⟨p, hp, hpn⟩
  exact List.count_eq_one_of_mem hfin.1 hmm

/-- Witness for C10, at the one-line stream consisting of a garbage line. -/
theorem C10_garbage_yields_empty_named_package_witness :
    ((parseOk [Line.garbage] "").Packages.map Package.Name).count "" = 1 :=
  C10_garbage_yields_empty_named_package [Line.garbage] ""
    (List.mem_singleton_self _)

end JsonParser
